import Mathlib

/-!
Verification development for the obsidian-copilot core subsystems:
the diff change-review engine (ApplyView) and the streaming action-block
extractor (ActionBlockStreamer), embedded shallowly from the TypeScript
source and checked against the specification's claims.
-/

set_option maxRecDepth 10000

namespace CopilotSpec

/-! ## Diff change-review engine (ApplyView)

Embeds the `ExtendedChange` data model and the reconstruction and
decision functions of `ApplyViewRoot`.
-/

/-- One diff change entry with its tri-state review decision, mirroring
`interface ExtendedChange extends Change { accepted: boolean | null }`.
`accepted = none` models JavaScript `null` (undecided). -/
structure ExtendedChange where
  value : String
  added : Bool
  removed : Bool
  accepted : Option Bool
deriving DecidableEq, Repr

/-- Default entry used for out-of-range `getD` lookups in statements. -/
def defaultChange : ExtendedChange := ⟨"", false, false, none⟩

/-- Concatenation of the `value` fields, mirroring `.map((c) => c.value).join("")`. -/
def concatValues : List ExtendedChange → String
  | [] => ""
  | c :: rest => c.value ++ concatValues rest

/-- The filter of `buildContentFromDiff`: `if (change.added) return
change.accepted === true; if (change.removed) return change.accepted ===
false; return true;`. -/
def keepCommitted (c : ExtendedChange) : Bool :=
  if c.added then c.accepted == some true
  else if c.removed then c.accepted == some false
  else true

/-- `buildContentFromDiff` from ApplyView: committed-content reconstruction. -/
def buildContentFromDiff (changes : List ExtendedChange) : String :=
  concatValues (changes.filter keepCommitted)

/-- The filter of `buildPreviewResultFromDiff`: `if (change.added) return
change.accepted !== false; if (change.removed) return change.accepted ===
false; return true;`. -/
def keepPreview (c : ExtendedChange) : Bool :=
  if c.added then !(c.accepted == some false)
  else if c.removed then c.accepted == some false
  else true

/-- `buildPreviewResultFromDiff` from ApplyView: live preview reconstruction. -/
def buildPreviewResultFromDiff (changes : List ExtendedChange) : String :=
  concatValues (changes.filter keepPreview)

/-- `originalContent` from ApplyView: `diff.filter((c) => !c.added).map((c) =>
c.value).join("")`. -/
def originalContent (changes : List ExtendedChange) : String :=
  concatValues (changes.filter (fun c => !c.added))

/-- Modelled from the spec: helper walk of `getChangeBlocks` (the grouping
function lives in `@/composerUtils`, which is not among the provided source
files; only its caller in ApplyView is). Per spec sections 3 and 4.4: a
maximal run of consecutive added/removed changes forms one block, and each
unchanged entry forms its own single-entry context block, in one linear,
order-preserving pass. -/
def getChangeBlocksGo (acc : List ExtendedChange) :
    List ExtendedChange → List (List ExtendedChange)
  | [] => if acc.isEmpty then [] else [acc.reverse]
  | c :: rest =>
    if c.added || c.removed then getChangeBlocksGo (c :: acc) rest
    else (if acc.isEmpty then [] else [acc.reverse]) ++ [c] :: getChangeBlocksGo [] rest

/-- Modelled from the spec: `getChangeBlocks` partitions a change sequence
into contiguous blocks (see `getChangeBlocksGo`). -/
def getChangeBlocks (changes : List ExtendedChange) : List (List ExtendedChange) :=
  getChangeBlocksGo [] changes

/-- Decision update applied to every entry of block `i`, mirroring the
`setDiff` updater shared by `acceptBlock` / `rejectBlock` / the revert
button: every entry of `changeBlocks[blockIndex]` has its `accepted` field
set to `d`; all other entries are untouched (block `i` occupies a contiguous
range of positions, so rebuilding by flattening the updated block list is
the positional update the source performs through identity `findIndex`). -/
def setBlockDecision (diff : List ExtendedChange) (i : Nat) (d : Option Bool) :
    List ExtendedChange :=
  ((getChangeBlocks diff).set i
    (((getChangeBlocks diff).getD i []).map (fun c => { c with accepted := d }))).flatten

/-- `acceptBlock` from ApplyView: sets `accepted: true` on every entry of
the selected block. -/
def acceptBlock (diff : List ExtendedChange) (i : Nat) : List ExtendedChange :=
  setBlockDecision diff i (some true)

/-- `rejectBlock` from ApplyView: sets `accepted: false` on every entry of
the selected block. -/
def rejectBlock (diff : List ExtendedChange) (i : Nat) : List ExtendedChange :=
  setBlockDecision diff i (some false)

/-- The diff update performed by `handleAcceptAll`: added entries get
`accepted: true`, removed entries get `accepted: false`, unchanged entries
are returned as-is. -/
def handleAcceptAllUpdate (diff : List ExtendedChange) : List ExtendedChange :=
  diff.map (fun c =>
    if c.added then { c with accepted := some true }
    else if c.removed then { c with accepted := some false }
    else c)

/-! ### Helper lemmas for the review engine -/

theorem getChangeBlocksGo_flatten (xs : List ExtendedChange) :
    ∀ acc, (getChangeBlocksGo acc xs).flatten = acc.reverse ++ xs := by
  induction xs with
  | nil =>
    intro acc
    by_cases h : acc.isEmpty
    · simp [getChangeBlocksGo, h, List.isEmpty_iff.mp h]
    · simp [getChangeBlocksGo, h]
  | cons c rest ih =>
    intro acc
    by_cases h : (c.added || c.removed) = true
    · rw [getChangeBlocksGo, if_pos h, ih]
      simp
    · rw [getChangeBlocksGo, if_neg h, List.flatten_append, List.flatten_cons, ih []]
      by_cases ha : acc.isEmpty
      · simp [ha, List.isEmpty_iff.mp ha]
      · simp [ha]

theorem getChangeBlocks_flatten (xs : List ExtendedChange) :
    (getChangeBlocks xs).flatten = xs := by
  simpa using getChangeBlocksGo_flatten xs []

/-! ### Claims about the review engine -/

/-- C7: for every change sequence, concatenating in order the entries of all
blocks returned by the grouping function reproduces the input exactly, and
the empty sequence yields the empty block list. -/
theorem c7_group_flatten_id :
    (∀ xs : List ExtendedChange, (getChangeBlocks xs).flatten = xs) ∧
      getChangeBlocks [] = [] := by
  exact ⟨getChangeBlocks_flatten, rfl⟩

/-- The committed-content membership rule exactly as the claim words it:
keep a neutral entry always, an added entry only when its decision is
accepted (true), a removed entry only when its decision is explicitly
rejected (false). -/
def specKeepCommitted (c : ExtendedChange) : Bool :=
  (!c.added && !c.removed) || (c.added && c.accepted == some true) ||
    (c.removed && c.accepted == some false)

/-- C2: on change sequences satisfying the data-model invariant (no entry is
both added and removed, spec section 3), the committed reconstruction is the
value-concatenation of exactly the entries the claim describes: the code's
filter `keepCommitted` holds of an entry iff it is neutral, or added with
decision accepted (true), or removed with decision explicitly rejected
(false); in particular every undecided added or removed entry fails the
code's filter and so is excluded from the committed result. -/
theorem c2_committed_filter (changes : List ExtendedChange)
    (h : ∀ c ∈ changes, ¬(c.added = true ∧ c.removed = true)) :
    buildContentFromDiff changes = concatValues (changes.filter specKeepCommitted) ∧
      (∀ c ∈ changes, keepCommitted c = true ↔
        ((c.added = false ∧ c.removed = false) ∨
          (c.added = true ∧ c.accepted = some true) ∨
          (c.removed = true ∧ c.accepted = some false))) ∧
      ∀ c ∈ changes, c.accepted = none → (c.added = true ∨ c.removed = true) →
        keepCommitted c = false := by
  refine ⟨?_, ?_, ?_⟩
  · unfold buildContentFromDiff
    have hf : changes.filter keepCommitted = changes.filter specKeepCommitted := by
      apply List.filter_congr
      intro c hc
      have hnb := h c hc
      cases hadd : c.added <;> cases hrem : c.removed <;>
        simp [keepCommitted, specKeepCommitted, hadd, hrem] at hnb ⊢
    rw [hf]
  · intro c hc
    have hnb := h c hc
    cases hadd : c.added <;> cases hrem : c.removed <;>
      simp [keepCommitted, hadd, hrem] at hnb ⊢
  · intro c _ hacc hcr
    rcases hcr with h1 | h1
    · simp [keepCommitted, h1, hacc]
    · cases hadd : c.added <;> simp [keepCommitted, hadd, h1, hacc]

/-- Witness for C2 at a concrete input: a single undecided added entry
fails the committed filter and the reconstruction equals the spec-side
filtered concatenation. -/
theorem c2_committed_filter_witness :
    buildContentFromDiff [⟨"x", true, false, none⟩] =
        concatValues (([⟨"x", true, false, none⟩] : List ExtendedChange).filter
          specKeepCommitted) ∧
      keepCommitted ⟨"x", true, false, none⟩ = false := by
  have h := c2_committed_filter [⟨"x", true, false, none⟩] (by decide)
  exact ⟨h.1, h.2.2 ⟨"x", true, false, none⟩ (by decide) rfl (Or.inl rfl)⟩

/-- C3: on the scenario sequence `[A neutral, B removed, C added]`, accepting
the changed block then rebuilding committed content yields `"AC"`; rejecting
it instead yields `"AB"`. -/
theorem c3_scenario_accept_reject :
    buildContentFromDiff
        (acceptBlock [⟨"A", false, false, none⟩, ⟨"B", false, true, none⟩,
          ⟨"C", true, false, none⟩] 1) = "AC" ∧
      buildContentFromDiff
        (rejectBlock [⟨"A", false, false, none⟩, ⟨"B", false, true, none⟩,
          ⟨"C", true, false, none⟩] 1) = "AB" := by
  constructor <;> rfl

/-- C4 counterexample: the block-level accept operation sets a removed
entry's decision to `some true` (not the claimed accepted-false), and
overwrites a neutral entry's decision (not leaving it as it was). -/
theorem c4_counterexample :
    acceptBlock [⟨"B", false, true, none⟩] 0 = [⟨"B", false, true, some true⟩] ∧
      acceptBlock [⟨"A", false, false, none⟩] 0 = [⟨"A", false, false, some true⟩] ∧
      (some true ≠ (some false : Option Bool)) ∧
      (some true ≠ (none : Option Bool)) := by
  refine ⟨rfl, rfl, by decide, by decide⟩

/-- C4 amended: the block-level accept operation sets every entry of the
selected block — added, removed, and neutral alike — to accepted (true),
and touches nothing outside the block: positionally, the result agrees
with the input everywhere outside the selected block's index range, every
position inside the range carries the input entry with its decision
overwritten to `some true`, and an out-of-range block index is a no-op.
The role-matching assignment the claim describes (added → true,
removed → false, neutral untouched) is performed by the accept-all
operation instead. -/
theorem c4_amended_accept_semantics (diff : List ExtendedChange) (i : Nat) :
    (i < (getChangeBlocks diff).length →
      (∀ k, (k < (((getChangeBlocks diff).take i).flatten).length ∨
          (((getChangeBlocks diff).take i).flatten).length +
            ((getChangeBlocks diff).getD i []).length ≤ k) →
        (acceptBlock diff i)[k]? = diff[k]?) ∧
      ∀ k, (((getChangeBlocks diff).take i).flatten).length ≤ k →
        k < (((getChangeBlocks diff).take i).flatten).length +
          ((getChangeBlocks diff).getD i []).length →
        (acceptBlock diff i)[k]? =
          (diff[k]?).map (fun c => { c with accepted := some true })) ∧
    ((getChangeBlocks diff).length ≤ i → acceptBlock diff i = diff) ∧
    (∀ k, k < diff.length →
      ((handleAcceptAllUpdate diff).getD k defaultChange).accepted =
        (if (diff.getD k defaultChange).added then some true
         else if (diff.getD k defaultChange).removed then some false
         else (diff.getD k defaultChange).accepted)) := by
  refine ⟨?_, ?_, ?_⟩
  · intro hi
    have hgd : (getChangeBlocks diff).getD i [] = (getChangeBlocks diff)[i] := by
      rw [List.getD_eq_getElem?_getD, List.getElem?_eq_getElem hi, Option.getD_some]
    have hdiffdec : diff = ((getChangeBlocks diff).take i).flatten ++
        ((getChangeBlocks diff).getD i [] ++
          ((getChangeBlocks diff).drop (i + 1)).flatten) := by
      conv_lhs => rw [← getChangeBlocks_flatten diff,
        ← List.take_append_drop i (getChangeBlocks diff),
        List.drop_eq_getElem_cons hi]
      rw [List.flatten_append, List.flatten_cons, hgd]
    have hacc : acceptBlock diff i = ((getChangeBlocks diff).take i).flatten ++
        ((((getChangeBlocks diff).getD i []).map
            (fun c => { c with accepted := some true })) ++
          ((getChangeBlocks diff).drop (i + 1)).flatten) := by
      unfold acceptBlock setBlockDecision
      rw [List.set_eq_take_cons_drop _ hi, List.flatten_append, List.flatten_cons]
    constructor
    · intro k hk
      rcases hk with hlt | hge
      · rw [hacc]
        conv_rhs => rw [hdiffdec]
        rw [List.getElem?_append_left hlt, List.getElem?_append_left hlt]
      · rw [hacc]
        conv_rhs => rw [hdiffdec]
        have hA : (((getChangeBlocks diff).take i).flatten).length ≤ k := by omega
        rw [List.getElem?_append_right hA, List.getElem?_append_right hA]
        have hBm : (((getChangeBlocks diff).getD i []).map
            (fun c => { c with accepted := some true })).length ≤
            k - (((getChangeBlocks diff).take i).flatten).length := by
          rw [List.length_map]
          omega
        have hB : ((getChangeBlocks diff).getD i []).length ≤
            k - (((getChangeBlocks diff).take i).flatten).length := by omega
        rw [List.getElem?_append_right hBm, List.getElem?_append_right hB,
          List.length_map]
    · intro k hk1 hk2
      rw [hacc]
      conv_rhs => rw [hdiffdec]
      rw [List.getElem?_append_right hk1, List.getElem?_append_right hk1,
        List.getElem?_append_left (by rw [List.length_map]; omega),
        List.getElem?_append_left (by omega), List.getElem?_map]
  · intro hge
    unfold acceptBlock setBlockDecision
    rw [List.set_eq_of_length_le hge]
    exact getChangeBlocks_flatten diff
  · intro k hk
    have hk' : k < (handleAcceptAllUpdate diff).length := by
      simpa [handleAcceptAllUpdate] using hk
    rw [List.getD_eq_getElem?_getD, List.getD_eq_getElem?_getD,
      List.getElem?_eq_getElem hk', List.getElem?_eq_getElem hk]
    simp only [Option.getD_some, handleAcceptAllUpdate, List.getElem_map]
    by_cases hadd : diff[k].added
    · simp [hadd]
    · by_cases hrem : diff[k].removed <;> simp [hadd, hrem]

/-- Witness for C4's amended theorem: on the scenario diff grouped as
`[[A], [B, C]]`, accepting block 1 leaves position 0 (outside the block)
unchanged and overwrites position 1 (inside the block, a removed entry)
with decision `some true`. -/
theorem c4_amended_accept_semantics_witness :
    (acceptBlock [⟨"A", false, false, none⟩, ⟨"B", false, true, none⟩,
        ⟨"C", true, false, none⟩] 1)[0]? =
      ([⟨"A", false, false, none⟩, ⟨"B", false, true, none⟩,
        ⟨"C", true, false, none⟩] : List ExtendedChange)[0]? ∧
    (acceptBlock [⟨"A", false, false, none⟩, ⟨"B", false, true, none⟩,
        ⟨"C", true, false, none⟩] 1)[1]? =
      (([⟨"A", false, false, none⟩, ⟨"B", false, true, none⟩,
        ⟨"C", true, false, none⟩] : List ExtendedChange)[1]?).map
        (fun c => { c with accepted := some true }) := by
  have h := c4_amended_accept_semantics [⟨"A", false, false, none⟩,
    ⟨"B", false, true, none⟩, ⟨"C", true, false, none⟩] 1
  have hi : 1 < (getChangeBlocks [⟨"A", false, false, none⟩,
      ⟨"B", false, true, none⟩, ⟨"C", true, false, none⟩]).length := by decide
  exact ⟨(h.1 hi).1 0 (Or.inl (by decide)), (h.1 hi).2 1 (by decide) (by decide)⟩

/-- Pointwise agreement of two change sequences everywhere except possibly
the decisions stored on neutral (neither added nor removed) entries. -/
def neutralAgree (a b : ExtendedChange) : Prop :=
  a.value = b.value ∧ a.added = b.added ∧ a.removed = b.removed ∧
    ((a.added = true ∨ a.removed = true) → a.accepted = b.accepted)

instance (a b : ExtendedChange) : Decidable (neutralAgree a b) := by
  unfold neutralAgree; infer_instance

theorem neutralAgree_keep_eq {a b : ExtendedChange} (h : neutralAgree a b) :
    keepCommitted a = keepCommitted b ∧ keepPreview a = keepPreview b ∧
      (!a.added) = (!b.added) := by
  obtain ⟨_, hadd, hrem, hacc⟩ := h
  refine ⟨?_, ?_, by rw [hadd]⟩
  · unfold keepCommitted
    rw [← hadd, ← hrem]
    by_cases ha : a.added
    · simp [ha, hacc (Or.inl ha)]
    · by_cases hr : a.removed <;> simp [ha, hr]
      exact by rw [hacc (Or.inr hr)]
  · unfold keepPreview
    rw [← hadd, ← hrem]
    by_cases ha : a.added
    · simp [ha, hacc (Or.inl ha)]
    · by_cases hr : a.removed <;> simp [ha, hr]
      exact by rw [hacc (Or.inr hr)]

/-- C10: two change sequences that differ only in the decisions stored on
neutral entries reconstruct identical committed content, preview content,
and original view. -/
theorem c10_neutral_noninterference (d1 d2 : List ExtendedChange)
    (hlen : d1.length = d2.length)
    (h : ∀ k, k < d1.length → neutralAgree (d1.getD k defaultChange) (d2.getD k defaultChange)) :
    buildContentFromDiff d1 = buildContentFromDiff d2 ∧
      buildPreviewResultFromDiff d1 = buildPreviewResultFromDiff d2 ∧
      originalContent d1 = originalContent d2 := by
  induction d1 generalizing d2 with
  | nil =>
    cases d2 with
    | nil => exact ⟨rfl, rfl, rfl⟩
    | cons b t2 => simp at hlen
  | cons a t1 ih =>
    cases d2 with
    | nil => simp at hlen
    | cons b t2 =>
      have hhead : neutralAgree a b := by
        have := h 0 (by simp)
        simpa using this
      have htail : ∀ k, k < t1.length →
          neutralAgree (t1.getD k defaultChange) (t2.getD k defaultChange) := by
        intro k hk
        have := h (k + 1) (by simpa using Nat.succ_lt_succ hk)
        simpa using this
      have hlen' : t1.length = t2.length := by simpa using hlen
      obtain ⟨ih1, ih2, ih3⟩ := ih t2 hlen' htail
      obtain ⟨hkc, hkp, hka⟩ := neutralAgree_keep_eq hhead
      have hval : a.value = b.value := hhead.1
      refine ⟨?_, ?_, ?_⟩
      · unfold buildContentFromDiff at ih1 ⊢
        rw [List.filter_cons, List.filter_cons, ← hkc]
        cases hc : keepCommitted a <;> simp [concatValues, hval, ih1]
      · unfold buildPreviewResultFromDiff at ih2 ⊢
        rw [List.filter_cons, List.filter_cons, ← hkp]
        cases hc : keepPreview a <;> simp [concatValues, hval, ih2]
      · unfold originalContent at ih3 ⊢
        rw [List.filter_cons, List.filter_cons, ← hka]
        cases hc : !a.added <;> simp [concatValues, hval, ih3]

/-- Witness for C10 at a concrete pair: one neutral entry with decisions
`none` and `some true` reconstructs the same three views. -/
theorem c10_neutral_noninterference_witness :
    buildContentFromDiff [⟨"A", false, false, none⟩] =
        buildContentFromDiff [⟨"A", false, false, some true⟩] ∧
      buildPreviewResultFromDiff [⟨"A", false, false, none⟩] =
        buildPreviewResultFromDiff [⟨"A", false, false, some true⟩] ∧
      originalContent [⟨"A", false, false, none⟩] =
        originalContent [⟨"A", false, false, some true⟩] := by
  exact c10_neutral_noninterference [⟨"A", false, false, none⟩]
    [⟨"A", false, false, some true⟩] rfl (by decide)

/-! ## Streaming action-block extractor (ActionBlockStreamer)

Embeds the buffer scanning of `findCompleteBlock` (the regex
`<(tag1|...|tag7)>[\s\S]*?<\/\1>` with leftmost-first, lazy-body
semantics), the argument extraction of `extractTagValue` / `parseBoolean`,
and the chunk-processing loop of `processChunk`. Text is `List Char`;
the tool registry and tool execution, which live outside this core, are
oracle parameters. -/

/-- The fixed catalog of recognized tag names, in source order. -/
def tagNames : List String :=
  ["writeToFile", "replaceInFile", "deleteNote", "createFolder", "deleteFolder",
    "moveFile", "moveFolder"]

/-- The characters of an opening tag `<t>`. -/
def openTagChars (t : String) : List Char := '<' :: (t.data ++ ['>'])

/-- The characters of a closing tag `</t>`. -/
def closeTagChars (t : String) : List Char := '<' :: '/' :: (t.data ++ ['>'])

/-- Index of the first occurrence of `pat` in `s`, or `none`; this is the
semantics of a lazy regex body scanning for its closing literal. -/
def findSub (pat : List Char) : List Char → Option Nat
  | [] => if pat.isPrefixOf ([] : List Char) then some 0 else none
  | c :: rest =>
    if pat.isPrefixOf (c :: rest) then some 0 else (findSub pat rest).map (· + 1)

/-- Attempt to match a complete recognized block starting exactly at the
head of `s`: some recognized tag must open here, and its own closing tag
must occur later; the body is lazy, ending at the first such closing tag.
Returns the tag and the total matched length. -/
def tryMatchHere (s : List Char) : Option (String × Nat) :=
  tagNames.findSome? (fun t =>
    if (openTagChars t).isPrefixOf s then
      match findSub (closeTagChars t) (s.drop (openTagChars t).length) with
      | some k => some (t, (openTagChars t).length + k + (closeTagChars t).length)
      | none => none
    else none)

/-- The result record of `findCompleteBlock`: the matched block text, the
tag (tool) name, and the index just past the closing tag. -/
structure BlockInfo where
  block : List Char
  toolName : String
  endIdx : Nat
deriving DecidableEq, Repr

/-- Leftmost scan of `findCompleteBlock`: try each start position from the
left, matching lazily at the first position where a recognized block is
complete; `pos` is the absolute index of the head of `s` in the buffer. -/
def findCompleteBlockAux : List Char → Nat → Option BlockInfo
  | [], _ => none
  | c :: rest, pos =>
    match tryMatchHere (c :: rest) with
    | some (t, len) => some ⟨(c :: rest).take len, t, pos + len⟩
    | none => findCompleteBlockAux rest (pos + 1)

/-- `findCompleteBlock` from ActionBlockStreamer: first complete recognized
`<tag>...</tag>` block in the buffer, with match text, tag name and end
offset, or `none` if no complete block exists yet. -/
def findCompleteBlock (s : List Char) : Option BlockInfo :=
  findCompleteBlockAux s 0

/-- JavaScript-style whitespace test for `String.prototype.trim`. -/
def isWsChar (c : Char) : Bool :=
  c = ' ' || c = '\t' || c = '\n' || c = '\r' || c = '\x0b' || c = '\x0c'

/-- `trim()` on a character list: strip whitespace from both ends. -/
def trimChars (s : List Char) : List Char :=
  ((s.dropWhile isWsChar).reverse.dropWhile isWsChar).reverse

/-- Scan for `extractTagValue`'s regex `<tag>([\s\S]*?)<\/tag>`: leftmost
start position where the opening literal matches and the closing literal
occurs after it; returns the untrimmed inner text. -/
def extractAux (openT closeT : List Char) : List Char → Option (List Char)
  | [] => none
  | c :: rest =>
    if openT.isPrefixOf (c :: rest) then
      match findSub closeT ((c :: rest).drop openT.length) with
      | some k => some (((c :: rest).drop openT.length).take k)
      | none => extractAux openT closeT rest
    else extractAux openT closeT rest

/-- `extractTagValue` from ActionBlockStreamer: first `<tag>...</tag>` inner
text of the block, trimmed, or `none` when absent. -/
def extractTagValue (block : List Char) (tag : String) : Option (List Char) :=
  (extractAux (openTagChars tag) (closeTagChars tag) block).map trimChars

/-- `parseBoolean` from ActionBlockStreamer: trimmed, lowercased `"true"` /
`"false"` map to the booleans; anything else (including absence) is `none`. -/
def parseBoolean (value : Option (List Char)) : Option Bool :=
  match value with
  | none => none
  | some v =>
    let w := (trimChars v).map Char.toLower
    if w = "true".data then some true
    else if w = "false".data then some false
    else none

/-- An extracted argument value: a string field (possibly absent, mirroring
`undefined`) or a boolean field. -/
inductive ArgValue where
  | vstr : Option (List Char) → ArgValue
  | vbool : Bool → ArgValue
deriving DecidableEq, Repr

/-- The argument record built by `processChunk`'s per-tool `if` chain. -/
def extractArgs (toolName : String) (block : List Char) : List (String × ArgValue) :=
  if toolName = "writeToFile" then
    [("path", .vstr (extractTagValue block "path")),
      ("content", .vstr (extractTagValue block "content"))]
  else if toolName = "replaceInFile" then
    [("path", .vstr (extractTagValue block "path")),
      ("diff", .vstr (extractTagValue block "diff"))]
  else if toolName = "deleteNote" then
    [("path", .vstr (extractTagValue block "path"))]
  else if toolName = "createFolder" then
    [("path", .vstr (extractTagValue block "path"))]
  else if toolName = "deleteFolder" then
    [("path", .vstr (extractTagValue block "path"))] ++
      (match parseBoolean (extractTagValue block "recursive") with
       | some b => [("recursive", .vbool b)]
       | none => [])
  else if toolName = "moveFile" ∨ toolName = "moveFolder" then
    [("fromPath", .vstr (extractTagValue block "fromPath")),
      ("toPath", .vstr (extractTagValue block "toPath"))] ++
      (match parseBoolean (extractTagValue block "createMissingFolders") with
       | some b => [("createMissingFolders", .vbool b)]
       | none => [])
  else []

/-- One entry of an array-form chunk content (Claude thinking models):
a part with a `type` and an optional `text` (`none` models null/undefined). -/
structure ChunkItem where
  type : String
  text : Option (List Char)
deriving DecidableEq, Repr

/-- The `content` field of a chunk: null, a plain string, or a list of
typed parts. -/
inductive ChunkContent where
  | cnull : ChunkContent
  | cstr : List Char → ChunkContent
  | carr : List ChunkItem → ChunkContent
deriving DecidableEq, Repr

/-- A streamed chunk: its content plus `meta`, standing for all the other
fields that `{ ...chunk, content: ... }` clones unchanged. -/
structure Chunk where
  content : ChunkContent
  meta : Nat
deriving DecidableEq, Repr

/-- The text payload extraction at the top of `processChunk`: array contents
concatenate the text of `type === "text"` parts with non-null text; string
contents pass through; null contributes nothing. -/
def chunkText : ChunkContent → List Char
  | .cnull => []
  | .cstr s => s
  | .carr items =>
    items.foldl (fun acc it =>
      match it.text with
      | some tx => if it.type = "text" then acc ++ tx else acc
      | none => acc) []

/-- One dispatch of a completed block: the tool (tag) name and the argument
record extracted from the block text. -/
structure BlockEvent where
  toolName : String
  args : List (String × ArgValue)
deriving DecidableEq, Repr

/-- The dispatch record of a found block. -/
def mkEvent (b : BlockInfo) : BlockEvent :=
  ⟨b.toolName, extractArgs b.toolName b.block⟩

/-- The dispatch loop of `processChunk`, fuelled by the buffer length:
while a complete block is found, record its dispatch and drop the buffer
through the block's end offset. -/
def consumeBlocksFuel : Nat → List Char → List BlockEvent × List Char
  | 0, s => ([], s)
  | fuel + 1, s =>
    match findCompleteBlock s with
    | none => ([], s)
    | some b =>
      let r := consumeBlocksFuel fuel (s.drop b.endIdx)
      (mkEvent b :: r.1, r.2)

/-- Consume every complete block currently in the buffer, in order,
returning the dispatch records and the remaining buffer. -/
def consumeBlocks (s : List Char) : List BlockEvent × List Char :=
  consumeBlocksFuel s.length s

/-- Outcome of awaiting a registered tool on a block's arguments: a
formatted success text (`ToolResultFormatter.format`) or a failure whose
message is interpolated into the error chunk. Tools are external to this
core, so the outcome is an oracle. -/
inductive Outcome where
  | success : List Char → Outcome
  | failure : List Char → Outcome
deriving DecidableEq, Repr

/-- The text of the synthesized chunk for one dispatched block: the
formatted result wrapped in newlines on success, `\nError: <message>\n` on
tool failure, and `\nError: Tool not available for tag: <tagName>\n` when
no tool is registered for the tag (the thrown error is caught at block
level). -/
def resultText (reg : String → Bool)
    (outc : String → List (String × ArgValue) → Outcome) (ev : BlockEvent) : List Char :=
  if reg ev.toolName then
    match outc ev.toolName ev.args with
    | .success f => '\n' :: (f ++ ['\n'])
    | .failure m => '\n' :: ("Error: ".data ++ (m ++ ['\n']))
  else '\n' :: ("Error: Tool not available for tag: ".data ++ (ev.toolName.data ++ ['\n']))

/-- The synthesized result chunk: `{ ...chunk, content: text }`. -/
def synthChunk (orig : Chunk) (txt : List Char) : Chunk :=
  { orig with content := .cstr txt }

/-- Everything one `processChunk` call produces: the yielded chunks in
order, the dispatch records in order, and the buffer left behind. -/
structure StepResult where
  emits : List Chunk
  events : List BlockEvent
  buffer : List Char
deriving Repr

/-- `processChunk` from ActionBlockStreamer: append the chunk's text to the
buffer, yield the original chunk unchanged, then repeatedly dispatch each
complete block, yielding one synthesized result chunk per block and
truncating the buffer past it. -/
def processChunk (reg : String → Bool)
    (outc : String → List (String × ArgValue) → Outcome)
    (buffer : List Char) (c : Chunk) : StepResult :=
  ⟨c :: (consumeBlocks (buffer ++ chunkText c.content)).1.map
      (fun ev => synthChunk c (resultText reg outc ev)),
    (consumeBlocks (buffer ++ chunkText c.content)).1,
    (consumeBlocks (buffer ++ chunkText c.content)).2⟩

/-- Feed a whole list of chunks through one streamer instance, threading the
buffer, concatenating yields and dispatches in order. -/
def runChunks (reg : String → Bool)
    (outc : String → List (String × ArgValue) → Outcome) :
    List Char → List Chunk → StepResult
  | buf, [] => ⟨[], [], buf⟩
  | buf, c :: cs =>
    ⟨(processChunk reg outc buf c).emits ++
        (runChunks reg outc (processChunk reg outc buf c).buffer cs).emits,
      (processChunk reg outc buf c).events ++
        (runChunks reg outc (processChunk reg outc buf c).buffer cs).events,
      (runChunks reg outc (processChunk reg outc buf c).buffer cs).buffer⟩

/-- A plain text chunk, as used by string-content streams. -/
def mkTextChunk (s : List Char) : Chunk := ⟨.cstr s, 0⟩

/-- Substring test: does `pat` occur anywhere in `s`. -/
def containsSub (pat s : List Char) : Bool := (findSub pat s).isSome

/-! ### Occurrence toolkit

`pat <+: s.drop i` states that `pat` occurs in `s` at index `i`. The
lemmas below characterize `findSub`, `tryMatchHere` and
`findCompleteBlockAux` in terms of occurrences. -/

theorem isPf_iff {l₁ l₂ : List Char} : l₁.isPrefixOf l₂ = true ↔ l₁ <+: l₂ :=
  List.isPrefixOf_iff_prefix

theorem takePf (n : Nat) (l : List Char) : l.take n <+: l :=
  List.take_prefix n l

theorem openTagChars_length_pos (t : String) : 0 < (openTagChars t).length := by
  simp [openTagChars]

theorem closeTagChars_length_pos (t : String) : 0 < (closeTagChars t).length := by
  simp [closeTagChars]

theorem openTagChars_ne_nil (t : String) : openTagChars t ≠ [] := by
  simp [openTagChars]

theorem closeTagChars_ne_nil (t : String) : closeTagChars t ≠ [] := by
  simp [closeTagChars]

theorem findSub_none_of {pat : List Char} :
    ∀ {s : List Char}, (∀ i, ¬ pat <+: s.drop i) → findSub pat s = none := by
  intro s
  induction s with
  | nil =>
    intro h
    simp only [findSub]
    rw [if_neg]
    intro hc
    exact h 0 (isPf_iff.mp hc)
  | cons c rest ih =>
    intro h
    simp only [findSub]
    rw [if_neg, ih (fun i => by have h' := h (i + 1); rwa [List.drop_succ_cons] at h')]
    · rfl
    · intro hc
      exact h 0 (isPf_iff.mp hc)

theorem findSub_none_inv {pat : List Char} :
    ∀ {s : List Char}, findSub pat s = none → ∀ i, ¬ pat <+: s.drop i := by
  intro s
  induction s with
  | nil =>
    intro h i hocc
    simp only [findSub] at h
    by_cases hc : pat.isPrefixOf ([] : List Char) = true
    · rw [if_pos hc] at h; cases h
    · rw [List.drop_nil] at hocc
      exact hc (isPf_iff.mpr hocc)
  | cons c rest ih =>
    intro h i hocc
    simp only [findSub] at h
    by_cases hc : pat.isPrefixOf (c :: rest) = true
    · rw [if_pos hc] at h; cases h
    · rw [if_neg hc] at h
      cases i with
      | zero =>
        rw [List.drop_zero] at hocc
        exact hc (isPf_iff.mpr hocc)
      | succ i' =>
        rw [List.drop_succ_cons] at hocc
        cases hf : findSub pat rest with
        | some k => rw [hf] at h; cases h
        | none => exact ih hf i' hocc

theorem findSub_some_inv {pat : List Char} :
    ∀ {s : List Char} {k : Nat}, findSub pat s = some k →
      pat <+: s.drop k ∧ ∀ j, j < k → ¬ pat <+: s.drop j := by
  intro s
  induction s with
  | nil =>
    intro k h
    simp only [findSub] at h
    by_cases hc : pat.isPrefixOf ([] : List Char) = true
    · rw [if_pos hc] at h
      cases h
      exact ⟨isPf_iff.mp hc, by omega⟩
    · rw [if_neg hc] at h; cases h
  | cons c rest ih =>
    intro k h
    simp only [findSub] at h
    by_cases hc : pat.isPrefixOf (c :: rest) = true
    · rw [if_pos hc] at h
      cases h
      exact ⟨isPf_iff.mp hc, by omega⟩
    · rw [if_neg hc] at h
      cases hf : findSub pat rest with
      | none => rw [hf] at h; cases h
      | some k' =>
        rw [hf] at h
        simp only [Option.map_some'] at h
        cases h
        obtain ⟨hp, hmin⟩ := ih hf
        refine ⟨by rwa [List.drop_succ_cons], ?_⟩
        intro j hj
        cases j with
        | zero =>
          rw [List.drop_zero]
          intro hb
          exact hc (isPf_iff.mpr hb)
        | succ j' =>
          rw [List.drop_succ_cons]
          exact hmin j' (by omega)

theorem findSub_some_of {pat : List Char} :
    ∀ {s : List Char} {k : Nat}, pat <+: s.drop k →
      (∀ j, j < k → ¬ pat <+: s.drop j) → findSub pat s = some k := by
  intro s
  induction s with
  | nil =>
    intro k hocc hmin
    rw [List.drop_nil] at hocc
    have hk : k = 0 := by
      by_contra hne
      exact hmin 0 (by omega) (by rw [List.drop_nil]; exact hocc)
    subst hk
    simp only [findSub]
    rw [if_pos (isPf_iff.mpr hocc)]
  | cons c rest ih =>
    intro k hocc hmin
    cases k with
    | zero =>
      rw [List.drop_zero] at hocc
      simp only [findSub]
      rw [if_pos (isPf_iff.mpr hocc)]
    | succ k' =>
      have h0 : ¬ pat.isPrefixOf (c :: rest) = true := by
        intro hc
        exact hmin 0 (by omega) (by rw [List.drop_zero]; exact isPf_iff.mp hc)
      simp only [findSub]
      rw [if_neg h0,
        ih (by rwa [List.drop_succ_cons] at hocc)
          (fun j hj => by
            have h' := hmin (j + 1) (by omega)
            rwa [List.drop_succ_cons] at h')]
      rfl

theorem containsSub_of_occ {pat s : List Char} {i : Nat} (h : pat <+: s.drop i) :
    containsSub pat s = true := by
  unfold containsSub
  cases hf : findSub pat s with
  | some k => rfl
  | none => exact absurd h (findSub_none_inv hf i)

theorem occ_of_take {pat l : List Char} {m i : Nat} (h : pat <+: (l.take m).drop i) :
    pat <+: l.drop i := by
  rw [List.drop_take] at h
  have htp := takePf (m - i) (l.drop i)
  exact h.trans htp

theorem occ_into_take {pat l : List Char} {m i : Nat} (h : pat <+: l.drop i)
    (hle : i + pat.length ≤ m) : pat <+: (l.take m).drop i := by
  rw [List.drop_take, List.prefix_iff_eq_take] at *
  calc pat = (l.drop i).take pat.length := h
    _ = (l.drop i).take (min pat.length (m - i)) := by rw [min_eq_left (by omega)]
    _ = ((l.drop i).take (m - i)).take pat.length := by rw [List.take_take]

theorem occ_length_le {pat l : List Char} {i : Nat} (hne : pat ≠ [])
    (h : pat <+: l.drop i) : i + pat.length ≤ l.length := by
  by_cases hi : i ≤ l.length
  · have hl := h.length_le
    rw [List.length_drop] at hl
    omega
  · exfalso
    have hd : l.drop i = [] := by rw [List.drop_eq_nil_iff]; omega
    rw [hd] at h
    exact hne (List.prefix_nil.mp h)

theorem occ_append_right {pat l₁ l₂ : List Char} {i : Nat} (h : pat <+: l₂.drop i) :
    pat <+: (l₁ ++ l₂).drop (l₁.length + i) := by
  rw [List.drop_append]
  exact h

/-! ### tryMatchHere characterization -/

theorem findSome?_eq_some_unique {α β : Type} {l : List α} {f : α → Option β}
    {t : α} {r : β} (ht : t ∈ l) (hf : f t = some r)
    (hothers : ∀ u ∈ l, u ≠ t → f u = none) : l.findSome? f = some r := by
  induction l with
  | nil => cases ht
  | cons a as ih =>
    rw [List.findSome?_cons]
    by_cases ha : a = t
    · subst ha; rw [hf]
    · rw [hothers a (List.mem_cons_self a as) ha]
      cases ht with
      | head => exact absurd rfl ha
      | tail _ ht' =>
        exact ih ht' (fun u hu hut => hothers u (List.mem_cons_of_mem a hu) hut)

theorem tagNames_open_unique :
    ∀ t ∈ tagNames, ∀ u ∈ tagNames,
      (openTagChars t).isPrefixOf (openTagChars u) = true → t = u := by
  decide

theorem openTag_unique_at {s : List Char} {t u : String} (ht : t ∈ tagNames)
    (hu : u ∈ tagNames) (h1 : openTagChars t <+: s) (h2 : openTagChars u <+: s) :
    t = u := by
  rcases Nat.le_total (openTagChars t).length (openTagChars u).length with hle | hle
  · exact tagNames_open_unique t ht u hu
      (isPf_iff.mpr (List.prefix_of_prefix_length_le h1 h2 hle))
  · exact (tagNames_open_unique u hu t ht
      (isPf_iff.mpr (List.prefix_of_prefix_length_le h2 h1 hle))).symm

theorem tryMatchHere_none_of_no_open {s : List Char}
    (h : ∀ t ∈ tagNames, ¬ openTagChars t <+: s) : tryMatchHere s = none := by
  rw [tryMatchHere, List.findSome?_eq_none_iff]
  intro t htm
  rw [if_neg]
  intro hc
  exact h t htm (isPf_iff.mp hc)

theorem tryMatchHere_none_of_no_close {s : List Char}
    (h : ∀ t ∈ tagNames, (openTagChars t).isPrefixOf s = true →
      findSub (closeTagChars t) (s.drop (openTagChars t).length) = none) :
    tryMatchHere s = none := by
  rw [tryMatchHere, List.findSome?_eq_none_iff]
  intro t htm
  by_cases hc : (openTagChars t).isPrefixOf s = true
  · rw [if_pos hc, h t htm hc]
  · rw [if_neg hc]

theorem tryMatchHere_some_of {s : List Char} {t : String} {k : Nat}
    (ht : t ∈ tagNames) (hpf : openTagChars t <+: s)
    (hfs : findSub (closeTagChars t) (s.drop (openTagChars t).length) = some k) :
    tryMatchHere s =
      some (t, (openTagChars t).length + k + (closeTagChars t).length) := by
  rw [tryMatchHere]
  apply findSome?_eq_some_unique ht
  · rw [if_pos (isPf_iff.mpr hpf), hfs]
  · intro u hu hut
    have hnc : ¬ ((openTagChars u).isPrefixOf s = true) := fun hc =>
      hut (openTag_unique_at hu ht (isPf_iff.mp hc) hpf)
    rw [if_neg hnc]

theorem tryMatchHere_some_inv {s : List Char} {t : String} {len : Nat}
    (h : tryMatchHere s = some (t, len)) :
    t ∈ tagNames ∧ openTagChars t <+: s ∧
      ∃ k, findSub (closeTagChars t) (s.drop (openTagChars t).length) = some k ∧
        len = (openTagChars t).length + k + (closeTagChars t).length := by
  rw [tryMatchHere, List.findSome?_eq_some_iff] at h
  obtain ⟨l₁, a, l₂, hl, hfa, -⟩ := h
  have ha : a ∈ tagNames := by
    rw [hl]
    exact List.mem_append_right _ (List.mem_cons_self _ _)
  by_cases hc : (openTagChars a).isPrefixOf s = true
  · rw [if_pos hc] at hfa
    cases hfs : findSub (closeTagChars a) (s.drop (openTagChars a).length) with
    | none => rw [hfs] at hfa; cases hfa
    | some k =>
      rw [hfs] at hfa
      have hat : a = t := congrArg Prod.fst (Option.some.inj hfa)
      have hlen : (openTagChars a).length + k + (closeTagChars a).length = len :=
        congrArg Prod.snd (Option.some.inj hfa)
      subst hat
      exact ⟨ha, isPf_iff.mp hc, k, hfs, hlen.symm⟩
  · rw [if_neg hc] at hfa
    cases hfa

theorem tryMatchHere_nil : tryMatchHere [] = none := by decide

/-! ### findCompleteBlock characterization -/

theorem fcbAux_none_of :
    ∀ {s : List Char}, (∀ i, tryMatchHere (s.drop i) = none) →
      ∀ pos, findCompleteBlockAux s pos = none := by
  intro s
  induction s with
  | nil => intro _ _; rfl
  | cons c rest ih =>
    intro h pos
    have h0 := h 0
    rw [List.drop_zero] at h0
    simp only [findCompleteBlockAux, h0]
    exact ih (fun i => by have h' := h (i + 1); rwa [List.drop_succ_cons] at h') (pos + 1)

theorem fcbAux_some_of :
    ∀ (p : Nat) {s : List Char} {t : String} {len : Nat},
      (∀ i, i < p → tryMatchHere (s.drop i) = none) →
      tryMatchHere (s.drop p) = some (t, len) →
      ∀ pos, findCompleteBlockAux s pos =
        some ⟨(s.drop p).take len, t, pos + p + len⟩ := by
  intro p
  induction p with
  | zero =>
    intro s t len _ hm pos
    cases s with
    | nil =>
      rw [List.drop_nil, tryMatchHere_nil] at hm
      cases hm
    | cons c rest =>
      rw [List.drop_zero] at hm
      simp only [findCompleteBlockAux, hm, List.drop_zero, Nat.add_zero]
  | succ p ih =>
    intro s t len h hm pos
    cases s with
    | nil =>
      rw [List.drop_nil, tryMatchHere_nil] at hm
      cases hm
    | cons c rest =>
      have h0 := h 0 (Nat.succ_pos p)
      rw [List.drop_zero] at h0
      simp only [findCompleteBlockAux, h0]
      rw [ih (fun i hi => by
            have h' := h (i + 1) (Nat.succ_lt_succ hi)
            rwa [List.drop_succ_cons] at h')
          (by rwa [List.drop_succ_cons] at hm) (pos + 1)]
      simp only [List.drop_succ_cons, Option.some.injEq, BlockInfo.mk.injEq]
      exact ⟨trivial, trivial, by omega⟩

theorem fcbAux_some_inv :
    ∀ {s : List Char} {pos : Nat} {b : BlockInfo},
      findCompleteBlockAux s pos = some b →
      ∃ p t len, (∀ i, i < p → tryMatchHere (s.drop i) = none) ∧
        tryMatchHere (s.drop p) = some (t, len) ∧
        b = ⟨(s.drop p).take len, t, pos + p + len⟩ := by
  intro s
  induction s with
  | nil => intro pos b h; cases h
  | cons c rest ih =>
    intro pos b h
    cases hm : tryMatchHere (c :: rest) with
    | some tl =>
      obtain ⟨t, len⟩ := tl
      simp only [findCompleteBlockAux, hm] at h
      refine ⟨0, t, len, by omega, by rwa [List.drop_zero], ?_⟩
      rw [← Option.some.inj h]
      simp only [List.drop_zero, Nat.add_zero]
    | none =>
      simp only [findCompleteBlockAux, hm] at h
      obtain ⟨p, t, len, hmin, hsome, hb⟩ := ih h
      refine ⟨p + 1, t, len, ?_, by rwa [List.drop_succ_cons], ?_⟩
      · intro i hi
        cases i with
        | zero => rwa [List.drop_zero]
        | succ i' =>
          rw [List.drop_succ_cons]
          exact hmin i' (by omega)
      · rw [hb]
        simp only [List.drop_succ_cons, BlockInfo.mk.injEq]
        exact ⟨trivial, trivial, by omega⟩

theorem fcb_endIdx_pos {s : List Char} {b : BlockInfo}
    (h : findCompleteBlock s = some b) : 0 < b.endIdx := by
  obtain ⟨p, t, len, -, hsome, hb⟩ := fcbAux_some_inv h
  obtain ⟨-, -, k, -, hlen⟩ := tryMatchHere_some_inv hsome
  have hop := openTagChars_length_pos t
  rw [hb]
  simp only
  omega

theorem fcb_nil : findCompleteBlock [] = none := rfl

theorem fcb_ne_nil {s : List Char} {b : BlockInfo}
    (h : findCompleteBlock s = some b) : s ≠ [] := by
  intro h0
  rw [h0, fcb_nil] at h
  cases h

/-- Decomposition of a list along one of its occurring patterns. -/
theorem eq_append_of_pf {pat l : List Char} (h : pat <+: l) :
    l = pat ++ l.drop pat.length := by
  rw [List.prefix_iff_eq_take] at h
  conv_lhs => rw [← List.take_append_drop pat.length l]
  rw [← h]

/-! ### Consume-loop lemmas -/

theorem consumeBlocksFuel_of_none {s : List Char} (h : findCompleteBlock s = none) :
    ∀ f, consumeBlocksFuel f s = ([], s) := by
  intro f
  cases f with
  | zero => rfl
  | succ f' => simp only [consumeBlocksFuel, h]

theorem consumeBlocksFuel_of_some {s : List Char} {b : BlockInfo}
    (h : findCompleteBlock s = some b) (f : Nat) :
    consumeBlocksFuel (f + 1) s =
      (mkEvent b :: (consumeBlocksFuel f (s.drop b.endIdx)).1,
        (consumeBlocksFuel f (s.drop b.endIdx)).2) := by
  simp only [consumeBlocksFuel, h]

theorem consumeBlocksFuel_no_block :
    ∀ (f : Nat) (s : List Char), s.length ≤ f →
      findCompleteBlock (consumeBlocksFuel f s).2 = none := by
  intro f
  induction f with
  | zero =>
    intro s hs
    have h0 : s = [] := List.length_eq_zero.mp (by omega)
    subst h0
    exact fcb_nil
  | succ f ih =>
    intro s hs
    cases hf : findCompleteBlock s with
    | none =>
      rw [consumeBlocksFuel_of_none hf]
      exact hf
    | some b =>
      rw [consumeBlocksFuel_of_some hf]
      apply ih
      have hpos := fcb_endIdx_pos hf
      have hnn : 0 < s.length := List.length_pos.mpr (fcb_ne_nil hf)
      rw [List.length_drop]
      omega

theorem consumeBlocks_no_block (s : List Char) :
    findCompleteBlock (consumeBlocks s).2 = none :=
  consumeBlocksFuel_no_block s.length s (Nat.le_refl _)

/-! ### Claims about the streaming processor -/

/-- C9: after `processChunk` runs to completion, the internal buffer
contains no complete recognized tag block: the dispatch loop repeats until
`findCompleteBlock` returns none, so no completed block is carried over to
a later chunk. -/
theorem c9_buffer_no_complete_block
    (reg : String → Bool) (outc : String → List (String × ArgValue) → Outcome)
    (buffer : List Char) (c : Chunk) :
    findCompleteBlock (processChunk reg outc buffer c).buffer = none := by
  simp only [processChunk]
  exact consumeBlocks_no_block _

theorem processChunk_emits_succ
    (reg : String → Bool) (outc : String → List (String × ArgValue) → Outcome)
    (buffer : List Char) (c : Chunk) (k : Nat) :
    (processChunk reg outc buffer c).emits[k + 1]? =
      ((processChunk reg outc buffer c).events[k]?).map
        (fun ev => synthChunk c (resultText reg outc ev)) := by
  simp only [processChunk, List.getElem?_cons_succ]
  rw [List.getElem?_map]

/-- C6: `processChunk` emits the original chunk unchanged first, and the
synthesized result chunk of the k-th dispatched block is the (k+1)-th
emitted chunk — so every block's result is emitted after the pass-through
chunk and before anything produced for the next block. -/
theorem c6_emit_ordering
    (reg : String → Bool) (outc : String → List (String × ArgValue) → Outcome)
    (buffer : List Char) (c : Chunk) :
    (processChunk reg outc buffer c).emits.head? = some c ∧
      (processChunk reg outc buffer c).emits.length =
        (processChunk reg outc buffer c).events.length + 1 ∧
      ∀ k, (processChunk reg outc buffer c).emits[k + 1]? =
        ((processChunk reg outc buffer c).events[k]?).map
          (fun ev => synthChunk c (resultText reg outc ev)) := by
  refine ⟨rfl, ?_, processChunk_emits_succ reg outc buffer c⟩
  simp [processChunk]

/-- C5: a recognized block whose tag has no registered tool yields a
synthesized error chunk containing `Tool not available for tag: <tagName>`
(the thrown error is caught, so processing continues), and which blocks are
scanned and dispatched is entirely independent of the registry and the tool
outcomes, so later blocks are processed regardless. -/
theorem c5_unregistered_tool_error
    (reg : String → Bool) (outc : String → List (String × ArgValue) → Outcome)
    (buffer : List Char) (c : Chunk) :
    (∀ k ev, (processChunk reg outc buffer c).events[k]? = some ev →
      reg ev.toolName = false →
      (processChunk reg outc buffer c).emits[k + 1]? =
        some (synthChunk c ('\n' :: ("Error: Tool not available for tag: ".data ++
          (ev.toolName.data ++ ['\n'])))) ∧
      containsSub ("Tool not available for tag: ".data ++ ev.toolName.data)
        (resultText reg outc ev) = true) ∧
    ∀ (reg' : String → Bool) (outc' : String → List (String × ArgValue) → Outcome),
      (processChunk reg outc buffer c).events = (processChunk reg' outc' buffer c).events := by
  constructor
  · intro k ev hk hreg
    have htext : resultText reg outc ev =
        '\n' :: ("Error: Tool not available for tag: ".data ++ (ev.toolName.data ++ ['\n'])) := by
      unfold resultText
      rw [hreg]
      rfl
    constructor
    · have hch := processChunk_emits_succ reg outc buffer c k
      rw [hch, hk]
      simp only [Option.map_some']
      rw [htext]
    · rw [htext]
      have hq : "Error: Tool not available for tag: ".data =
          "Error: ".data ++ "Tool not available for tag: ".data := by decide
      have hocc : ("Tool not available for tag: ".data ++ ev.toolName.data) <+:
          (('\n' :: ("Error: Tool not available for tag: ".data ++
            (ev.toolName.data ++ ['\n'])))).drop 8 := by
        rw [hq]
        have hr : ('\n' :: (("Error: ".data ++ "Tool not available for tag: ".data) ++
            (ev.toolName.data ++ ['\n']))) =
            ('\n' :: "Error: ".data) ++
              (("Tool not available for tag: ".data ++ ev.toolName.data) ++ ['\n']) := by
          simp
        rw [hr]
        have hlen : ('\n' :: "Error: ".data).length = 8 := by decide
        rw [← hlen, List.drop_left]
        exact List.prefix_append _ _
      exact containsSub_of_occ hocc
  · intro reg' outc'
    rfl

/-- Witness for C5: a single-chunk stream with a complete `deleteNote`
block and an empty registry emits the `Tool not available` error chunk. -/
theorem c5_unregistered_tool_error_witness :
    (processChunk (fun _ => false) (fun _ _ => Outcome.failure [])
        [] (mkTextChunk "<deleteNote><path>p</path></deleteNote>".data)).emits[1]? =
      some (synthChunk (mkTextChunk "<deleteNote><path>p</path></deleteNote>".data)
        ('\n' :: ("Error: Tool not available for tag: ".data ++
          ("deleteNote".data ++ ['\n'])))) ∧
    containsSub ("Tool not available for tag: ".data ++ "deleteNote".data)
      (resultText (fun _ => false) (fun _ _ => Outcome.failure [])
        ⟨"deleteNote", [("path", ArgValue.vstr (some "p".data))]⟩) = true := by
  exact (c5_unregistered_tool_error (fun _ => false) (fun _ _ => Outcome.failure [])
    [] (mkTextChunk "<deleteNote><path>p</path></deleteNote>".data)).1 0
    ⟨"deleteNote", [("path", ArgValue.vstr (some "p".data))]⟩ (by decide) rfl

/-- The legality property C8 asserts of every returned block: the tag is
recognized, the block text opens and closes with that same tag, its body is
the shortest legal span (it stops at the first close tag of the same name,
and no occurrence of that close tag starts inside the body), the end offset
points just past the closing tag, and no complete block starts earlier in
the buffer. -/
def legalSpan (s : List Char) (b : BlockInfo) : Prop :=
  b.toolName ∈ tagNames ∧
  ∃ p k,
    openTagChars b.toolName <+: s.drop p ∧
    b.block = openTagChars b.toolName ++
      ((s.drop (p + (openTagChars b.toolName).length)).take k ++
        closeTagChars b.toolName) ∧
    closeTagChars b.toolName <+: s.drop (p + (openTagChars b.toolName).length + k) ∧
    (∀ j, j < k →
      ¬ closeTagChars b.toolName <+: s.drop (p + (openTagChars b.toolName).length + j)) ∧
    b.endIdx = p + b.block.length ∧
    ∀ i, i < p → tryMatchHere (s.drop i) = none

/-- No recognized tag that opens in `s` has its matching close tag
anywhere after it. -/
def noCompletePair (s : List Char) : Prop :=
  ∀ u ∈ tagNames, ∀ i, i < s.length →
    (openTagChars u).isPrefixOf (s.drop i) = true →
    findSub (closeTagChars u) (s.drop (i + (openTagChars u).length)) = none

instance (s : List Char) : Decidable (noCompletePair s) := by
  unfold noCompletePair
  infer_instance

/-- C8: `findCompleteBlock` returns none on every buffer without a complete
recognized open/close pair, and any block it does return is the shortest
legal span of a single recognized tag (so it can never span across sibling
tags). -/
theorem c8_shortest_legal_span (s : List Char) :
    (noCompletePair s → findCompleteBlock s = none) ∧
      ∀ b, findCompleteBlock s = some b → legalSpan s b := by
  constructor
  · intro hnp
    apply fcbAux_none_of
    intro i
    apply tryMatchHere_none_of_no_close
    intro t ht hpf
    by_cases hi : i < s.length
    · have hfs := hnp t ht i hi hpf
      rw [List.drop_drop]
      exact hfs
    · exfalso
      have hd : s.drop i = [] := by rw [List.drop_eq_nil_iff]; omega
      rw [hd] at hpf
      exact openTagChars_ne_nil t (List.prefix_nil.mp (isPf_iff.mp hpf))
  · intro b hb
    obtain ⟨p, t, len, hmin, hsome, hbeq⟩ := fcbAux_some_inv hb
    obtain ⟨ht, hpf, k, hfs, hlen⟩ := tryMatchHere_some_inv hsome
    rw [List.drop_drop] at hfs
    obtain ⟨hcocc, hcmin⟩ := findSub_some_inv hfs
    rw [List.drop_drop] at hcocc
    have hbt : b.toolName = t := by rw [hbeq]
    -- segment decomposition of the matched block
    have hsp : s.drop p = openTagChars t ++ s.drop (p + (openTagChars t).length) := by
      have hd := eq_append_of_pf hpf
      rwa [List.drop_drop] at hd
    have hX : s.drop (p + (openTagChars t).length + k) =
        closeTagChars t ++
          s.drop (p + (openTagChars t).length + k + (closeTagChars t).length) := by
      have hd := eq_append_of_pf hcocc
      rwa [List.drop_drop] at hd
    have hXd : (s.drop (p + (openTagChars t).length)).drop k =
        s.drop (p + (openTagChars t).length + k) := List.drop_drop _ _ _
    have hkle : k + (closeTagChars t).length ≤
        (s.drop (p + (openTagChars t).length)).length := by
      have h1 := occ_length_le (closeTagChars_ne_nil t)
        (by rw [hXd]; exact hcocc)
      exact h1
    have hblock : b.block = openTagChars t ++
        ((s.drop (p + (openTagChars t).length)).take k ++ closeTagChars t) := by
      rw [hbeq]
      simp only
      rw [hlen, hsp]
      have h1 : (openTagChars t).length + k + (closeTagChars t).length =
          (openTagChars t).length + (k + (closeTagChars t).length) := by omega
      rw [h1, List.take_append, List.take_add]
      congr 1
      congr 1
      rw [hXd, hX, List.take_left]
    have hblen : b.block.length = len := by
      rw [hblock]
      simp only [List.length_append, List.length_take]
      rw [hlen]
      have h2 : min k (s.drop (p + (openTagChars t).length)).length = k := by omega
      omega
    refine ⟨by rw [hbt]; exact ht, p, k, ?_, ?_, ?_, ?_, ?_, ?_⟩
    · rw [hbt]; exact hpf
    · rw [hbt]; exact hblock
    · rw [hbt]; exact hcocc
    · rw [hbt]
      intro j hj hocc
      exact hcmin j hj (by rwa [List.drop_drop])
    · rw [hbeq]
      simp only [List.length_take]
      have hdl : (s.drop (p + (openTagChars t).length)).length =
          s.length - (p + (openTagChars t).length) := List.length_drop _ _
      have hdl2 : (s.drop p).length = s.length - p := List.length_drop _ _
      have hmn : min len (s.drop p).length = len := by
        apply min_eq_left
        rw [hdl2]
        rw [hdl] at hkle
        have hcp := closeTagChars_length_pos t
        have hop := openTagChars_length_pos t
        omega
      rw [hmn]
      omega
    · exact hmin

/-! ### Well-formed embedded blocks and chunk-split invariance (C1) -/

/-- A well-formed action block: open tag, body, matching close tag. -/
def blkOf (t : String) (body : List Char) : List Char :=
  openTagChars t ++ (body ++ closeTagChars t)

/-- A stream carrying one well-formed action block embedded in free text. -/
def fullOf (t : String) (pre body post : List Char) : List Char :=
  pre ++ (blkOf t body ++ post)

/-- Index just past the embedded block's closing tag. -/
def closeEndOf (t : String) (pre body : List Char) : Nat :=
  pre.length + (blkOf t body).length

/-- Well-formedness for the open tags: the only occurrence of any
recognized opening tag in the stream is the embedded block's own, at the
end of the free prefix. -/
def onlyOpenAt (t : String) (pre body post : List Char) : Prop :=
  ∀ u ∈ tagNames, ∀ i, i < (fullOf t pre body post).length →
    (openTagChars u).isPrefixOf ((fullOf t pre body post).drop i) = true →
    i = pre.length ∧ u = t

/-- Well-formedness for the close tag: the only occurrence of the block's
closing tag in the stream is the embedded block's own. -/
def onlyCloseAt (t : String) (pre body post : List Char) : Prop :=
  ∀ i, i < (fullOf t pre body post).length →
    (closeTagChars t).isPrefixOf ((fullOf t pre body post).drop i) = true →
    i = pre.length + (openTagChars t).length + body.length

instance (t : String) (pre body post : List Char) :
    Decidable (onlyOpenAt t pre body post) := by
  unfold onlyOpenAt
  infer_instance

instance (t : String) (pre body post : List Char) :
    Decidable (onlyCloseAt t pre body post) := by
  unfold onlyCloseAt
  infer_instance

theorem blkOf_length (t : String) (body : List Char) :
    (blkOf t body).length =
      (openTagChars t).length + body.length + (closeTagChars t).length := by
  simp [blkOf]
  omega

theorem full_as_triple (t : String) (pre body post : List Char) :
    fullOf t pre body post = (pre ++ blkOf t body) ++ post := by
  simp [fullOf]

theorem full_length (t : String) (pre body post : List Char) :
    (fullOf t pre body post).length =
      closeEndOf t pre body + post.length := by
  rw [full_as_triple]
  simp [closeEndOf]
  omega

theorem closeEnd_le_full (t : String) (pre body post : List Char) :
    closeEndOf t pre body ≤ (fullOf t pre body post).length := by
  rw [full_length]
  omega

theorem closeEnd_lower (t : String) (pre body : List Char) :
    pre.length + (openTagChars t).length ≤ closeEndOf t pre body := by
  rw [closeEndOf, blkOf_length]
  have := closeTagChars_length_pos t
  omega

theorem full_drop_pre (t : String) (pre body post : List Char) :
    (fullOf t pre body post).drop pre.length = blkOf t body ++ post := by
  rw [fullOf]
  exact List.drop_left _ _

theorem full_drop_closeEnd (t : String) (pre body post : List Char) :
    (fullOf t pre body post).drop (closeEndOf t pre body) = post := by
  rw [full_as_triple]
  have h2 : closeEndOf t pre body = (pre ++ blkOf t body).length := by
    simp [closeEndOf]
  rw [h2]
  exact List.drop_left _ _

theorem full_drop_closePos (t : String) (pre body post : List Char) :
    (fullOf t pre body post).drop
        (pre.length + (openTagChars t).length + body.length) =
      closeTagChars t ++ post := by
  have h : fullOf t pre body post =
      (pre ++ (openTagChars t ++ body)) ++ (closeTagChars t ++ post) := by
    simp [fullOf, blkOf]
  rw [h]
  have h2 : pre.length + (openTagChars t).length + body.length =
      (pre ++ (openTagChars t ++ body)).length := by
    simp
    omega
  rw [h2]
  exact List.drop_left _ _

theorem open_occ_full (t : String) (pre body post : List Char) :
    openTagChars t <+: (fullOf t pre body post).drop pre.length := by
  rw [full_drop_pre]
  have h : blkOf t body ++ post = openTagChars t ++ ((body ++ closeTagChars t) ++ post) := by
    simp [blkOf]
  rw [h]
  exact List.prefix_append _ _

theorem close_occ_full (t : String) (pre body post : List Char) :
    closeTagChars t <+: (fullOf t pre body post).drop
      (pre.length + (openTagChars t).length + body.length) := by
  rw [full_drop_closePos]
  exact List.prefix_append _ _

/-- Any opening-tag occurrence inside a front fragment of the stream is the
embedded block's own. -/
theorem open_occ_in_take {t : String} {pre body post : List Char}
    (hO : onlyOpenAt t pre body post) {u : String} {i m : Nat}
    (hu : u ∈ tagNames)
    (h : openTagChars u <+: ((fullOf t pre body post).take m).drop i) :
    i = pre.length ∧ u = t := by
  have h2 := occ_of_take h
  have hlt : i < (fullOf t pre body post).length := by
    have hle := occ_length_le (openTagChars_ne_nil u) h2
    have hop := openTagChars_length_pos u
    omega
  exact hO u hu i hlt (isPf_iff.mpr h2)

/-- Any closing-tag occurrence inside a front fragment of the stream is the
embedded block's own. -/
theorem close_occ_in_take {t : String} {pre body post : List Char}
    (hC : onlyCloseAt t pre body post) {i m : Nat}
    (h : closeTagChars t <+: ((fullOf t pre body post).take m).drop i) :
    i = pre.length + (openTagChars t).length + body.length := by
  have h2 := occ_of_take h
  have hlt : i < (fullOf t pre body post).length := by
    have hle := occ_length_le (closeTagChars_ne_nil t) h2
    have hcp := closeTagChars_length_pos t
    omega
  exact hC i hlt (isPf_iff.mpr h2)

/-- Phase 1: while the buffer is a front fragment of the stream that stops
short of the closing tag, no complete block is found. -/
theorem fcb_take_none {t : String} {pre body post : List Char}
    (hO : onlyOpenAt t pre body post) (hC : onlyCloseAt t pre body post)
    {m : Nat} (hm : m < closeEndOf t pre body) :
    findCompleteBlock ((fullOf t pre body post).take m) = none := by
  apply fcbAux_none_of
  intro i
  apply tryMatchHere_none_of_no_close
  intro u hu hpf
  obtain ⟨hi, hut⟩ := open_occ_in_take hO hu (isPf_iff.mp hpf)
  subst hut
  subst hi
  rw [List.drop_drop]
  apply findSub_none_of
  intro j hocc
  rw [List.drop_drop] at hocc
  have hj := close_occ_in_take hC hocc
  have hfit := occ_length_le (closeTagChars_ne_nil u) hocc
  rw [List.length_take] at hfit
  have hce : closeEndOf u pre body =
      pre.length + (openTagChars u).length + body.length +
        (closeTagChars u).length := by
    rw [closeEndOf, blkOf_length]
    omega
  have hmin := Nat.min_le_left m (fullOf u pre body post).length
  omega

/-- Phase 2: once the buffer is a front fragment covering the closing tag,
`findCompleteBlock` returns exactly the embedded block. -/
theorem fcb_take_some {t : String} {pre body post : List Char}
    (hO : onlyOpenAt t pre body post) (hC : onlyCloseAt t pre body post)
    (ht : t ∈ tagNames) {m : Nat} (hm1 : closeEndOf t pre body ≤ m)
    (_hm2 : m ≤ (fullOf t pre body post).length) :
    findCompleteBlock ((fullOf t pre body post).take m) =
      some ⟨blkOf t body, t, closeEndOf t pre body⟩ := by
  have hce : closeEndOf t pre body =
      pre.length + (openTagChars t).length + body.length +
        (closeTagChars t).length := by
    rw [closeEndOf, blkOf_length]
    omega
  have hopen_in : openTagChars t <+:
      ((fullOf t pre body post).take m).drop pre.length := by
    apply occ_into_take (open_occ_full t pre body post)
    omega
  have hclose_in : closeTagChars t <+:
      ((fullOf t pre body post).take m).drop
        (pre.length + (openTagChars t).length + body.length) := by
    apply occ_into_take (close_occ_full t pre body post)
    omega
  have hfs : findSub (closeTagChars t)
      (((fullOf t pre body post).take m).drop
        (pre.length + (openTagChars t).length)) = some body.length := by
    apply findSub_some_of
    · rw [List.drop_drop]
      exact hclose_in
    · intro j hj hocc
      rw [List.drop_drop] at hocc
      have hjeq := close_occ_in_take hC hocc
      omega
  have htm : tryMatchHere
      (((fullOf t pre body post).take m).drop pre.length) =
      some (t, (openTagChars t).length + body.length + (closeTagChars t).length) := by
    apply tryMatchHere_some_of ht hopen_in
    rw [List.drop_drop]
    exact hfs
  have hnone : ∀ i, i < pre.length →
      tryMatchHere (((fullOf t pre body post).take m).drop i) = none := by
    intro i hi
    apply tryMatchHere_none_of_no_open
    intro u hu hocc
    obtain ⟨hieq, -⟩ := open_occ_in_take hO hu hocc
    omega
  rw [findCompleteBlock, fcbAux_some_of pre.length hnone htm 0]
  have hblock : (((fullOf t pre body post).take m).drop pre.length).take
      ((openTagChars t).length + body.length + (closeTagChars t).length) =
      blkOf t body := by
    rw [List.drop_take, List.take_take]
    have hmn : min
        ((openTagChars t).length + body.length + (closeTagChars t).length)
        (m - pre.length) = (openTagChars t).length + body.length +
          (closeTagChars t).length := by
      apply min_eq_left
      omega
    rw [hmn, full_drop_pre]
    have hb : blkOf t body ++ post = blkOf t body ++ post := rfl
    have hlb : (openTagChars t).length + body.length + (closeTagChars t).length =
        (blkOf t body).length := by
      rw [blkOf_length]
    rw [hlb]
    exact List.take_left _ _
  rw [hblock]
  simp only [Option.some.injEq, BlockInfo.mk.injEq]
  exact ⟨trivial, trivial, by omega⟩

/-- Phase 3: no fragment of the trailing free text ever contains a
recognized opening tag, so no block is ever found there. -/
theorem fcb_post_take_none {t : String} {pre body post : List Char}
    (hO : onlyOpenAt t pre body post) (q : Nat) :
    findCompleteBlock (post.take q) = none := by
  apply fcbAux_none_of
  intro i
  apply tryMatchHere_none_of_no_open
  intro u hu hocc
  have h2 := occ_of_take hocc
  have h3 : openTagChars u <+:
      (fullOf t pre body post).drop (closeEndOf t pre body + i) := by
    rw [full_as_triple]
    have hlen : closeEndOf t pre body = (pre ++ blkOf t body).length := by
      simp [closeEndOf]
    rw [hlen]
    exact occ_append_right h2
  have hlt : closeEndOf t pre body + i < (fullOf t pre body post).length := by
    have hle := occ_length_le (openTagChars_ne_nil u) h3
    have hop := openTagChars_length_pos u
    omega
  obtain ⟨hieq, -⟩ := hO u hu _ hlt (isPf_iff.mpr h3)
  have hlow := closeEnd_lower t pre body
  have hop := openTagChars_length_pos t
  omega

/-- Appending the next delivered chunk to a front fragment advances the
fragment: the new buffer, the new offset bound, and the remaining stream. -/
theorem take_append_chunk {l x rest : List Char} {m : Nat}
    (h : x ++ rest = l.drop m) (hm : m ≤ l.length) :
    l.take m ++ x = l.take (m + x.length) ∧ m + x.length ≤ l.length ∧
      rest = l.drop (m + x.length) := by
  have hpf : x <+: l.drop m := ⟨rest, h⟩
  have hxt : x = (l.drop m).take x.length := List.prefix_iff_eq_take.mp hpf
  refine ⟨?_, ?_, ?_⟩
  · rw [List.take_add, ← hxt]
  · have hle := hpf.length_le
    rw [List.length_drop] at hle
    omega
  · have h2 : l.drop m = x ++ (l.drop m).drop x.length := by
      conv_lhs => rw [← List.take_append_drop x.length (l.drop m)]
      rw [← hxt]
    have h3 : rest = (l.drop m).drop x.length :=
      List.append_cancel_left (h.trans h2)
    rw [h3, List.drop_drop]

/-- After the block has been dispatched, the remaining chunks only grow a
fragment of the trailing free text and dispatch nothing. -/
theorem run_post_events (reg : String → Bool)
    (outc : String → List (String × ArgValue) → Outcome)
    {t : String} {pre body post : List Char} (hO : onlyOpenAt t pre body post) :
    ∀ (cs : List (List Char)) (q : Nat), q ≤ post.length →
      cs.flatten = post.drop q →
      (runChunks reg outc (post.take q) (cs.map mkTextChunk)).events = [] := by
  intro cs
  induction cs with
  | nil => intro q _ _; rfl
  | cons x cs' ih =>
    intro q hq hfl
    rw [List.flatten_cons] at hfl
    obtain ⟨hb, hq', hrest⟩ := take_append_chunk hfl hq
    rw [List.map_cons]
    simp only [runChunks, processChunk]
    have hct : chunkText (mkTextChunk x).content = x := rfl
    rw [hct, hb]
    have hcb : consumeBlocks (post.take (q + x.length)) =
        ([], post.take (q + x.length)) := by
      rw [consumeBlocks]
      exact consumeBlocksFuel_of_none (fcb_post_take_none hO _) _
    rw [hcb]
    simp only [List.nil_append]
    exact ih (q + x.length) hq' hrest

/-- Before the closing tag has been delivered, each chunk either just grows
the buffered front fragment, or completes the block; in every case the
whole remaining run dispatches exactly the embedded block once. -/
theorem run_pre_events (reg : String → Bool)
    (outc : String → List (String × ArgValue) → Outcome)
    {t : String} {pre body post : List Char} (ht : t ∈ tagNames)
    (hO : onlyOpenAt t pre body post) (hC : onlyCloseAt t pre body post) :
    ∀ (cs : List (List Char)) (m : Nat), m ≤ (fullOf t pre body post).length →
      m < closeEndOf t pre body →
      cs.flatten = (fullOf t pre body post).drop m →
      (runChunks reg outc ((fullOf t pre body post).take m)
        (cs.map mkTextChunk)).events = [⟨t, extractArgs t (blkOf t body)⟩] := by
  intro cs
  induction cs with
  | nil =>
    intro m hm hmc hfl
    exfalso
    rw [List.flatten_nil] at hfl
    have hge : (fullOf t pre body post).length ≤ m :=
      List.drop_eq_nil_iff.mp hfl.symm
    have hce := closeEnd_le_full t pre body post
    omega
  | cons x cs' ih =>
    intro m hm hmc hfl
    rw [List.flatten_cons] at hfl
    obtain ⟨hb, hm', hrest⟩ := take_append_chunk hfl hm
    rw [List.map_cons]
    simp only [runChunks, processChunk]
    have hct : chunkText (mkTextChunk x).content = x := rfl
    rw [hct, hb]
    by_cases hcase : m + x.length < closeEndOf t pre body
    · have hcb : consumeBlocks ((fullOf t pre body post).take (m + x.length)) =
          ([], (fullOf t pre body post).take (m + x.length)) := by
        rw [consumeBlocks]
        exact consumeBlocksFuel_of_none (fcb_take_none hO hC hcase) _
      rw [hcb]
      simp only [List.nil_append]
      exact ih (m + x.length) hm' hcase hrest
    · have hge : closeEndOf t pre body ≤ m + x.length := Nat.le_of_not_lt hcase
      have hsome := fcb_take_some hO hC ht hge hm'
      have hce_pos : 0 < closeEndOf t pre body := by
        have := closeEnd_lower t pre body
        have := openTagChars_length_pos t
        omega
      have hslen : 0 < ((fullOf t pre body post).take (m + x.length)).length := by
        rw [List.length_take]
        have hcef := closeEnd_le_full t pre body post
        omega
      have hdropbuf : ((fullOf t pre body post).take (m + x.length)).drop
          (closeEndOf t pre body) = post.take (m + x.length - closeEndOf t pre body) := by
        rw [List.drop_take, full_drop_closeEnd]
      have hcb : consumeBlocks ((fullOf t pre body post).take (m + x.length)) =
          ([⟨t, extractArgs t (blkOf t body)⟩],
            post.take (m + x.length - closeEndOf t pre body)) := by
        rw [consumeBlocks]
        obtain ⟨n, hn⟩ : ∃ n,
            ((fullOf t pre body post).take (m + x.length)).length = n + 1 :=
          ⟨((fullOf t pre body post).take (m + x.length)).length - 1, by omega⟩
        rw [hn, consumeBlocksFuel_of_some hsome n]
        have hend : (⟨blkOf t body, t, closeEndOf t pre body⟩ : BlockInfo).endIdx =
            closeEndOf t pre body := rfl
        rw [hend, hdropbuf,
          consumeBlocksFuel_of_none (fcb_post_take_none hO _) n]
        rfl
      rw [hcb]
      have hLdrop : (fullOf t pre body post).drop (m + x.length) =
          post.drop (m + x.length - closeEndOf t pre body) := by
        rw [full_as_triple, List.drop_append_eq_append_drop]
        have hpl : (pre ++ blkOf t body).length = closeEndOf t pre body := by
          simp [closeEndOf]
        have hnil : (pre ++ blkOf t body).drop (m + x.length) = [] := by
          rw [List.drop_eq_nil_iff, hpl]
          omega
        rw [hnil, hpl, List.nil_append]
      have hq2 : m + x.length - closeEndOf t pre body ≤ post.length := by
        have hfl2 := full_length t pre body post
        omega
      have hrest' : cs'.flatten =
          post.drop (m + x.length - closeEndOf t pre body) := by
        rw [hrest, hLdrop]
      rw [run_post_events reg outc hO cs' _ hq2 hrest']
      rfl

/-- C1: a well-formed action block embedded in free text is dispatched
exactly once, with the argument fields extracted from the block text, no
matter how the stream is split into chunks — and identically to delivering
the whole text as one single chunk. -/
theorem c1_chunk_split_invariance (reg : String → Bool)
    (outc : String → List (String × ArgValue) → Outcome)
    (t : String) (pre body post : List Char) (ht : t ∈ tagNames)
    (hO : onlyOpenAt t pre body post) (hC : onlyCloseAt t pre body post)
    (cs : List (List Char)) (hcs : cs.flatten = fullOf t pre body post) :
    (runChunks reg outc [] (cs.map mkTextChunk)).events =
        [⟨t, extractArgs t (blkOf t body)⟩] ∧
      (runChunks reg outc [] [mkTextChunk (fullOf t pre body post)]).events =
        [⟨t, extractArgs t (blkOf t body)⟩] := by
  have hce_pos : 0 < closeEndOf t pre body := by
    have := closeEnd_lower t pre body
    have := openTagChars_length_pos t
    omega
  constructor
  · exact run_pre_events reg outc ht hO hC cs 0 (by omega) hce_pos
      (by rw [List.drop_zero]; exact hcs)
  · exact run_pre_events reg outc ht hO hC [fullOf t pre body post] 0 (by omega)
      hce_pos (by simp)

/-- Witness for C1: the spec's scenario stream, split into three chunks,
dispatches one `writeToFile` with path `a.md` and content `hi`, exactly as
the single-chunk delivery does. -/
theorem c1_chunk_split_invariance_witness :
    (runChunks (fun _ => true) (fun _ _ => Outcome.success [])
        [] ([mkTextChunk "he<writeToFile><pa".data,
          mkTextChunk "th>a.md</path><content>hi</content></wri".data,
          mkTextChunk "teToFile>llo".data])).events =
        [⟨"writeToFile",
          extractArgs "writeToFile"
            (blkOf "writeToFile" "<path>a.md</path><content>hi</content>".data)⟩] ∧
      (runChunks (fun _ => true) (fun _ _ => Outcome.success [])
        [] [mkTextChunk
          (fullOf "writeToFile" "he".data
            "<path>a.md</path><content>hi</content>".data "llo".data)]).events =
        [⟨"writeToFile",
          extractArgs "writeToFile"
            (blkOf "writeToFile" "<path>a.md</path><content>hi</content>".data)⟩] := by
  have h := c1_chunk_split_invariance (fun _ => true) (fun _ _ => Outcome.success [])
    "writeToFile" "he".data "<path>a.md</path><content>hi</content>".data "llo".data
    (by decide) (by decide) (by decide)
    ["he<writeToFile><pa".data, "th>a.md</path><content>hi</content></wri".data,
      "teToFile>llo".data] (by decide)
  exact ⟨h.1, h.2⟩

/-- Witness for C8: a buffer with an unmatched open tag has no block, and
the block found in a buffer where an unrelated tag surrounds a recognized
pair is the legal `moveFile` span. -/
theorem c8_shortest_legal_span_witness :
    findCompleteBlock "<writeToFile><path>x</path>".data = none ∧
      legalSpan "<foo><moveFile>x</moveFile></bar>".data
        ⟨"<moveFile>x</moveFile>".data, "moveFile", 27⟩ := by
  constructor
  · exact (c8_shortest_legal_span "<writeToFile><path>x</path>".data).1 (by decide)
  · exact (c8_shortest_legal_span "<foo><moveFile>x</moveFile></bar>".data).2
      ⟨"<moveFile>x</moveFile>".data, "moveFile", 27⟩ (by decide)

end CopilotSpec
